import Mathlib

/-!
Verification of the foam-block-ids parsing core.

This file embeds, in Lean, the section & block-identifier resolution plugin
(`src/packages/foam-vscode/src/core/services/section-parser-plugin.ts`,
`createSectionParserPlugin`), the parser pipeline and cache of
`src/packages/foam-vscode/src/core/services/markdown-parser.ts`, and the
`NoteLinkDefinition.format` function of the resource model, and proves or
refutes the specified properties of those functions.

The external Markdown-to-tree conversion (remark) is out of scope of the
repository; following the specification it is treated as a black box that
produces a tree of typed nodes carrying 1-indexed line/column positions, so
the embedded functions take such a tree as input.  JavaScript strings are
modelled as `String` (lists of characters), JavaScript `Set<Node>` (identity
based) as a list of node ids, and the ES2019 stable `Array.sort` as a stable
insertion sort over the source's comparator.
-/

namespace Foam

/-- 1-indexed source point, as produced by the external tree builder. -/
structure Point where
  line : Nat
  column : Nat
deriving Repr, DecidableEq

/-- 1-indexed source span of an AST node (`node.position`); `stop` models the
reserved field name `end`. -/
structure AstPosition where
  start : Point
  stop : Point
deriving Repr, DecidableEq

/-- The node kinds distinguished by the plugins.  `listN` models the mdast
type `list`; every other mdast node type is `other`. -/
inductive NodeType where
  | root | heading | paragraph | listItem | listN | blockquote
  | text | wikiLink | code | html | yaml | other
deriving Repr, DecidableEq

/-- An mdast node: `nid` models JavaScript object identity (assumed unique per
node in a real tree), `ndepth` models `node.depth` (0 = absent), `nvalue`
models `node.value` (`""` = absent, matching the source's `node.value || ''`
coalescing), `npos` models `node.position`. -/
inductive MdNode : Type where
  | node (nid : Nat) (ntype : NodeType) (ndepth : Nat) (nvalue : String)
      (npos : AstPosition) (children : List MdNode)
deriving Repr

def MdNode.nid : MdNode → Nat
  | .node i _ _ _ _ _ => i

def MdNode.ntype : MdNode → NodeType
  | .node _ t _ _ _ _ => t

def MdNode.ndepth : MdNode → Nat
  | .node _ _ d _ _ _ => d

def MdNode.nvalue : MdNode → String
  | .node _ _ _ v _ _ => v

def MdNode.npos : MdNode → AstPosition
  | .node _ _ _ _ p _ => p

def MdNode.children : MdNode → List MdNode
  | .node _ _ _ _ _ cs => cs

mutual
/-- Pre-order depth-first listing of a tree's nodes: the order in which
`unist-util-visit` / `visitWithAncestors` dispatch nodes. -/
def MdNode.preorder : MdNode → List MdNode
  | .node i t d v p cs => .node i t d v p cs :: preorderList cs
def preorderList : List MdNode → List MdNode
  | [] => []
  | c :: cs => MdNode.preorder c ++ preorderList cs
end

mutual
/-- The ids of a node and all of its descendants: the effect of
`visit(node, n => processedNodes.add(n))` on the identity-based set. -/
def MdNode.subtreeIds : MdNode → List Nat
  | .node i _ _ _ _ cs => i :: subtreeIdsList cs
def subtreeIdsList : List MdNode → List Nat
  | [] => []
  | c :: cs => MdNode.subtreeIds c ++ subtreeIdsList cs
end

/-- 0-indexed position used by the engine (`Position`). -/
structure FoamPos where
  line : Nat
  character : Nat
deriving Repr, DecidableEq

/-- 0-indexed half-open range used by the engine (`Range`); `stop` models the
reserved field name `end`. -/
structure FoamRange where
  start : FoamPos
  stop : FoamPos
deriving Repr, DecidableEq

/-- `astPointToFoamPosition`: 1-indexed point to 0-indexed position. -/
def astPointToFoamPosition (p : Point) : FoamPos :=
  ⟨p.line - 1, p.column - 1⟩

/-- `astPositionToFoamRange`: 1-indexed span to 0-indexed range. -/
def astPositionToFoamRange (p : AstPosition) : FoamRange :=
  ⟨astPointToFoamPosition p.start, astPointToFoamPosition p.stop⟩

/-- `getTextFromChildren`: concatenates, in visit (pre-)order, the `value` of
every text / wikiLink / code / html node in the subtree. -/
def getTextFromChildren (root : MdNode) : String :=
  String.join (root.preorder.map fun n =>
    if n.ntype = .text ∨ n.ntype = .wikiLink ∨ n.ntype = .code ∨ n.ntype = .html
    then n.nvalue else "")

/-- `getListItemText`: concatenates `getTextFromChildren` over the direct
`paragraph` children of a list item, ignoring nested lists. -/
def getListItemText (li : MdNode) : String :=
  String.join (li.children.map fun c =>
    if c.ntype = .paragraph then getTextFromChildren c else "")

/-- JavaScript `\s` on the characters that occur in Markdown text. -/
def isWs (c : Char) : Bool :=
  c == ' ' || c == '\t' || c == '\n' || c == '\r'

/-- A character of the block-identifier class `[:\w.-]` of the regexes
`/(?:^|\s)(\^[:\w.-]+)\s*$/` (JavaScript `\w` is `[A-Za-z0-9_]`). -/
def isIdChar (c : Char) : Bool :=
  c.isAlphanum || c == '_' || c == ':' || c == '.' || c == '-'

/-- JavaScript `String.prototype.trim`. -/
def jsTrim (s : String) : String :=
  String.mk (((s.data.dropWhile isWs).reverse.dropWhile isWs).reverse)

/-- Matching of the trailing-block-identifier regex
`/(?:^|\s)(\^[:\w.-]+)\s*$/` against `s` (used on heading labels and on
paragraph / list-item text).  Returns `some (before, token)` where `token` is
the captured caret-prefixed identifier (`match[1]`) and `before` is what
`s.replace(regex, '')` leaves (everything before the consumed separator).
A match requires: optional trailing whitespace, preceded by a maximal nonempty
run of `[:\w.-]` characters, preceded by `^`, preceded by a whitespace
character or the start of the string. -/
def splitTrailingBlockId (s : String) : Option (String × String) :=
  let rest := s.data.reverse.dropWhile isWs
  let tokRev := rest.takeWhile isIdChar
  match rest.dropWhile isIdChar with
  | '^' :: rest3 =>
    if tokRev.isEmpty then none
    else
      match rest3 with
      | [] => some (String.mk [], String.mk ('^' :: tokRev.reverse))
      | c :: rest4 =>
        if isWs c then some (String.mk rest4.reverse, String.mk ('^' :: tokRev.reverse))
        else none
  | _ => none

/-! ### Slug generator

The slug generator is the external `github-slugger` dependency, which is not
part of this repository's sources.  Modelled from the spec: "given a label,
returns a URL-safe lowercase identifier, appending a numeric suffix on
collision within the same document; must be reset at the start of every
parse".  `Slugger.used` records every identifier returned so far; on a
collision the least free numeric suffix is appended, which coincides with the
library's per-base counter because every candidate the counter has passed was
already recorded as used. -/

/-- Modelled from the spec: the base (collision-free) slug of a label — a
URL-safe lowercase identifier. -/
def baseSlug (s : String) : String :=
  String.mk (s.data.filterMap fun c =>
    if c.isAlpha then some c.toLower
    else if c.isDigit || c == '-' || c == '_' then some c
    else if c == ' ' then some '-' else none)

/-- Little-endian base-10 digits of `n`, with fuel (structurally recursive so
that concrete runs evaluate in the kernel). -/
def natDigits : Nat → Nat → List Nat
  | 0, _ => []
  | fuel + 1, n => if n = 0 then [] else n % 10 :: natDigits fuel (n / 10)

/-- Decimal rendering of a positive natural number (JavaScript `String(n)`). -/
def natDecL (n : Nat) : List Char :=
  ((natDigits n n).map Nat.digitChar).reverse

/-- The numeric-suffix candidate `base-k`. -/
def cand (base : String) (k : Nat) : String :=
  String.mk (base.data ++ '-' :: natDecL k)

/-- Search, with fuel, for the least `i ≥ k` whose candidate `base-i` is not
yet used. -/
def findSuffix (base : String) (used : List String) : Nat → Nat → String
  | k, 0 => cand base k
  | k, fuel + 1 => if cand base k ∈ used then findSuffix base used (k + 1) fuel else cand base k

/-- Modelled from the spec: the per-document slug-generator state — the set of
identifiers already emitted for this document. -/
structure Slugger where
  used : List String
deriving Repr, DecidableEq

/-- Modelled from the spec: `slugger.slug(label)` — return the base slug, or,
if it collides with an already-emitted identifier, the base slug with the
least free numeric suffix appended; record the result as used. -/
def Slugger.slug (sl : Slugger) (label : String) : String × Slugger :=
  let base := baseSlug label
  let out :=
    if base ∈ sl.used then findSuffix base sl.used 1 (sl.used.length + 1)
    else base
  (out, ⟨out :: sl.used⟩)

/-! ### The section parser plugin (`createSectionParserPlugin`) -/

/-- A `sectionStack` entry: `{label, level, start, blockId?}`. -/
structure StackItem where
  label : String
  level : Nat
  start : FoamPos
  blockId : Option String
deriving Repr, DecidableEq

/-- A `Section` of the resource model (`canonicalId : string | undefined`). -/
structure Section where
  label : String
  range : FoamRange
  canonicalId : Option String
  linkableIds : List String
deriving Repr, DecidableEq

/-- Which branch of the plugin emitted a section: the heading branch
(`while`-loop in `visit` / final loop in `onDidVisitTree`) or the
paragraph/list-item branch.  This tag is bookkeeping of the embedding only; it
is erased by `noteSections`. -/
inductive Origin where
  | heading | block
deriving Repr, DecidableEq

/-- The plugin's closure state: the slug generator, the identity-based
`processedNodes` set (node ids), the `sectionStack` (head = top of stack), and
the sections pushed so far (newest first; reversed on finalization to recover
the push order of `note.sections`). -/
structure PluginState where
  slugger : Slugger
  processed : List Nat
  stack : List StackItem
  sections : List (Origin × Section)
deriving Repr

/-- The state installed by `onWillVisitTree`: reset slugger, cleared
`processedNodes`, empty stack, `note.sections = []`. -/
def initState : PluginState := ⟨⟨[]⟩, [], [], []⟩

/-- The section emitted for a popped stack entry closed at position `stop`:
`label` = popped label, `canonicalId` = slug, `linkableIds` = `[slug]` plus,
when the entry had a `blockId`, the caret-prefixed id and
`blockId.substring(1)`. -/
def mkHeadingSection (item : StackItem) (stop : FoamPos) (slug : String) : Section :=
  { label := item.label
    range := ⟨item.start, stop⟩
    canonicalId := some slug
    linkableIds := slug :: (match item.blockId with
      | some b => [b, b.drop 1]
      | none => []) }

/-- The `while` loop of the heading branch of `visit`: pop and emit every
stack entry whose level is ≥ the current heading's `level`; `hStart` is the
current heading's 0-indexed start position (the popped sections' range end). -/
def popEmit (level : Nat) (hStart : FoamPos) :
    List StackItem → Slugger → List (Origin × Section) →
    List StackItem × Slugger × List (Origin × Section)
  | [], sl, secs => ([], sl, secs)
  | top :: rest, sl, secs =>
    if level ≤ top.level then
      popEmit level hStart rest (sl.slug top.label).2
        ((.heading, mkHeadingSection top hStart (sl.slug top.label).1) :: secs)
    else (top :: rest, sl, secs)

/-- The ids marked processed by the list-item fallback branch: the node itself
plus the full subtree of each direct `paragraph` child. -/
def listItemProcessedIds (n : MdNode) : List Nat :=
  n.nid :: (n.children.map fun c =>
    if c.ntype = .paragraph then c.subtreeIds else []).flatten

/-- Close the deeper-or-equal open sections and push the current heading:
the tail of the heading branch of `visit` after label / block-id
extraction. -/
def pushHeading (st : PluginState) (label : String) (level : Nat) (start : FoamPos)
    (blockId : Option String) : PluginState :=
  { slugger := (popEmit level start st.stack st.slugger st.sections).2.1
    processed := st.processed
    stack := ⟨label, level, start, blockId⟩ ::
      (popEmit level start st.stack st.slugger st.sections).1
    sections := (popEmit level start st.stack st.slugger st.sections).2.2 }

/-- The `visit` hook of `createSectionParserPlugin` for a single node. -/
def visitNode (st : PluginState) (n : MdNode) : PluginState :=
  if n.ntype = .heading then
    let level := n.ndepth
    let label0 := getTextFromChildren n
    if label0 = "" ∨ level = 0 then st
    else
      match splitTrailingBlockId label0 with
      | some (before, tok) =>
        pushHeading st (jsTrim before) level (astPositionToFoamRange n.npos).start (some tok)
      | none =>
        pushHeading st label0 level (astPositionToFoamRange n.npos).start none
  else
    if (n.ntype = .paragraph ∨ n.ntype = .listItem) ∧ n.nid ∉ st.processed then
      let text := if n.ntype = .listItem then getListItemText n else getTextFromChildren n
      match splitTrailingBlockId text with
      | some (before, tok) =>
        let blockId := tok.drop 1
        { st with
          sections := (.block,
            { label := jsTrim before
              range := astPositionToFoamRange n.npos
              canonicalId := some blockId
              linkableIds := [blockId] }) :: st.sections
          processed := n.subtreeIds ++ st.processed }
      | none =>
        if n.ntype = .listItem then
          { st with
            sections := (.block,
              { label := jsTrim text
                range := astPositionToFoamRange n.npos
                canonicalId := none
                linkableIds := [] }) :: st.sections
            processed := listItemProcessedIds n ++ st.processed }
        else st
    else st

/-- Folding the `visit` hook over a node list. -/
def visitAll (st : PluginState) (ns : List MdNode) : PluginState :=
  ns.foldl visitNode st

/-- The final loop of `onDidVisitTree`: pop and emit every remaining stack
entry with range end `fileEnd`.  Its body is identical to the `while` loop of
the heading branch except that the pop condition is always true, so it is the
`popEmit` emission with level 0 (`0 ≤ top.level` always holds). -/
def popAll (fileEnd : FoamPos) (stack : List StackItem) (sl : Slugger)
    (secs : List (Origin × Section)) : List StackItem × Slugger × List (Origin × Section) :=
  popEmit 0 fileEnd stack sl secs

/-- Stable insertion of a section into a line-sorted list: the model of the
ES2019 stable `Array.sort` with comparator
`(a, b) => a.range.start.line - b.range.start.line`. -/
def insertByLine (x : Origin × Section) :
    List (Origin × Section) → List (Origin × Section)
  | [] => [x]
  | y :: ys =>
    if x.2.range.start.line ≤ y.2.range.start.line then x :: y :: ys
    else y :: insertByLine x ys

/-- Stable sort by `range.start.line` (the `note.sections.sort` call of
`onDidVisitTree`). -/
def sortByLine : List (Origin × Section) → List (Origin × Section)
  | [] => []
  | x :: xs => insertByLine x (sortByLine xs)

/-- A full run of the plugin over one document tree:
`onWillVisitTree` reset, `visit` on every node in pre-order,
`onDidVisitTree` finalization (close remaining stack entries at the
document end position, then stable-sort by range start line). -/
def runPlugin (tree : MdNode) : List (Origin × Section) :=
  let st := visitAll initState tree.preorder
  let fileEnd := astPointToFoamPosition tree.npos.stop
  let r := popAll fileEnd st.stack st.slugger st.sections
  sortByLine r.2.2.reverse

/-- `note.sections` after the run: the emitted sections with the embedding's
origin tag erased. -/
def noteSections (tree : MdNode) : List Section :=
  (runPlugin tree).map Prod.snd

/-! ### Shapes of emitted sections (used to state the invariants) -/

/-- The shape of every section emitted by the heading branch: its
`canonicalId` is a slug `c`, and its `linkableIds` are `[c]`, extended — when
the popped entry carried a block id `b` (always caret-prefixed) — by `b` and
`b.substring(1)`. -/
def HeadingShape (sec : Section) : Prop :=
  ∃ c, sec.canonicalId = some c ∧
    (sec.linkableIds = [c] ∨
      ∃ b, b.data.head? = some '^' ∧ sec.linkableIds = [c, b, b.drop 1])

/-- The shape of every section emitted by the paragraph / list-item branch:
either a block id `c` with `linkableIds = [c]`, or no id and no linkable
ids. -/
def BlockShape (sec : Section) : Prop :=
  (∃ c, sec.canonicalId = some c ∧ sec.linkableIds = [c]) ∨
  (sec.canonicalId = none ∧ sec.linkableIds = [])

/-- Every emitted section has the shape of its branch. -/
def SecOK : Origin × Section → Prop
  | (.heading, sec) => HeadingShape sec
  | (.block, sec) => BlockShape sec

/-- The canonical ids of the heading-branch sections of a tagged list. -/
def hIds (secs : List (Origin × Section)) : List String :=
  secs.filterMap fun os =>
    match os with
    | (.heading, sec) => sec.canonicalId
    | (.block, _) => none

/-- A stack entry's block id, when present, is caret-prefixed (it is the
capture of `/(?:^|\s)(\^[:\w.-]+)\s*$/`). -/
def ItemOK (item : StackItem) : Prop :=
  ∀ b, item.blockId = some b → b.data.head? = some '^'

/-- The plugin-state invariant maintained by every `visit` call. -/
def Inv (st : PluginState) : Prop :=
  (∀ item ∈ st.stack, ItemOK item) ∧
  (∀ os ∈ st.sections, SecOK os) ∧
  st.slugger.used.Nodup ∧
  (∀ c ∈ hIds st.sections, c ∈ st.slugger.used) ∧
  (hIds st.sections).Nodup ∧
  (st.stack.map StackItem.level).Pairwise (· > ·)

/-! ### Parse cache (`createMarkdownParser`, `cachedParser`)

The cache supplied to `createMarkdownParser` implements `ICache<URI,
ParserCacheEntry>` (a map from document URI to entry); it is modelled as an
association list in which `set` replaces any previous binding of the key.
The checksum function (`hash` of the utils) and the underlying parser
(`actualParser.parse`) are parameters; the returned `Bool` records whether
the underlying parser was invoked. -/

/-- `ParserCacheEntry`: the checksum of the parsed text plus the resource. -/
structure ParserCacheEntry (ρ : Type) where
  checksum : String
  resource : ρ
deriving Repr, DecidableEq

/-- The cache contents: at most one entry per key is maintained by `set`. -/
structure ParserCache (κ ρ : Type) where
  entries : List (κ × ParserCacheEntry ρ)
deriving Repr, DecidableEq

/-- `cache.has(uri)` / `cache.get(uri)` combined. -/
def ParserCache.lookup {κ ρ : Type} [DecidableEq κ] (c : ParserCache κ ρ) (k : κ) :
    Option (ParserCacheEntry ρ) :=
  (c.entries.find? fun p => decide (p.1 = k)).map Prod.snd

/-- `cache.set(uri, entry)`: bind `k` to `e`, replacing any previous
binding. -/
def ParserCache.set {κ ρ : Type} [DecidableEq κ] (c : ParserCache κ ρ) (k : κ)
    (e : ParserCacheEntry ρ) : ParserCache κ ρ :=
  ⟨(k, e) :: c.entries.filter fun p => decide (p.1 ≠ k)⟩

/-- At most one cache entry per document id. -/
def keysNodup {κ ρ : Type} (c : ParserCache κ ρ) : Prop :=
  (c.entries.map Prod.fst).Nodup

/-- `cachedParser.parse(uri, markdown)`: compute the checksum of the raw
text; if an entry for the URI exists with a matching checksum return its
resource without parsing; otherwise parse, store, and return the fresh
resource.  The third component records whether the underlying parser ran. -/
def cachedParse {κ ρ : Type} [DecidableEq κ] (parseFn : κ → String → ρ)
    (hashFn : String → String) (uri : κ) (md : String) (c : ParserCache κ ρ) :
    ρ × ParserCache κ ρ × Bool :=
  let actualChecksum := hashFn md
  let hit : Option ρ :=
    match c.lookup uri with
    | some e => if actualChecksum = e.checksum then some e.resource else none
    | none => none
  match hit with
  | some r => (r, c, false)
  | none =>
    let r := parseFn uri md
    (r, c.set uri ⟨actualChecksum, r⟩, true)

/-! ### The plugin pipeline (`actualParser.parse`) and `handleError`

Hooks are modelled as `Except`-returning functions over an abstract resource
type `σ`: a hook that throws is one that returns `.error`.  `handleError`'s
`Logger.warn` call is modelled as appending a `LogEntry` carrying the hook
name, the plugin name and the document URI.  The external remark parse
(`parser.parse(markdown)`) and YAML decoding (`parseYAML`) are parameters. -/

/-- One `handleError` log record: hook name, plugin name, document URI. -/
structure LogEntry where
  hook : String
  plugin : String
  uri : String
deriving Repr, DecidableEq

/-- The model of a front-matter property map. -/
def Props : Type := List (String × String)

/-- A parser plugin: a bundle of optional hooks over resource type `σ`. -/
structure ParserPlugin (σ : Type) where
  name : String
  onWillParseMarkdown : Option (String → Except String Unit)
  onWillVisitTree : Option (MdNode → σ → Except String σ)
  onDidFindProperties : Option (Props → σ → MdNode → Except String σ)
  visit : Option (MdNode → σ → String → Except String σ)
  onDidVisitTree : Option (MdNode → σ → String → Except String σ)

/-- One `for (const plugin of plugins) { try { plugin.hook?.(…) } catch (e)
{ handleError(plugin, hname, uri, e) } }` loop: absent hooks are skipped, a
successful hook updates the resource, a throwing hook leaves the resource as
it was and emits the `handleError` record.  The second component is the list
of log records emitted by this loop (the caller accumulates the full log). -/
def hookFold {σ : Type} (uri hname : String)
    (call : ParserPlugin σ → σ → Option (Except String σ)) :
    List (ParserPlugin σ) → σ → σ × List LogEntry
  | [], note => (note, [])
  | p :: ps, note =>
    match call p note with
    | none => hookFold uri hname call ps note
    | some (.ok n') => hookFold uri hname call ps n'
    | some (.error _) =>
      ((hookFold uri hname call ps note).1,
        ⟨hname, p.name, uri⟩ :: (hookFold uri hname call ps note).2)

/-- The body of the `visitWithAncestors` callback for one node: the `yaml`
branch (decode, merge properties, dispatch `onDidFindProperties` to every
plugin; a decode failure is logged and skipped), then the `visit` dispatch to
every plugin. -/
def visitStep {σ : Type} (ps : List (ParserPlugin σ)) (uri md : String)
    (parseYaml : String → Except String Props) (mergeProps : σ → Props → σ)
    (acc : σ × List LogEntry) (n : MdNode) : σ × List LogEntry :=
  let acc1 :=
    if n.ntype = .yaml then
      match parseYaml n.nvalue with
      | .ok props =>
        ((hookFold uri "onDidFindProperties"
            (fun p note => (p.onDidFindProperties).map fun f => f props note n)
            ps (mergeProps acc.1 props)).1,
          acc.2 ++ (hookFold uri "onDidFindProperties"
            (fun p note => (p.onDidFindProperties).map fun f => f props note n)
            ps (mergeProps acc.1 props)).2)
      | .error _ => (acc.1, acc.2 ++ [⟨"yaml-parse", "", uri⟩])
    else acc
  ((hookFold uri "visit" (fun p note => (p.visit).map fun f => f n note md) ps acc1.1).1,
    acc1.2 ++ (hookFold uri "visit"
      (fun p note => (p.visit).map fun f => f n note md) ps acc1.1).2)

/-- `actualParser.parse(uri, markdown)`: dispatch `onWillParseMarkdown` to
every plugin (its return value is discarded by the source), create the fresh
resource (`init`), dispatch `onWillVisitTree`, walk the tree in pre-order
dispatching the per-node callback, then dispatch `onDidVisitTree`; every
dispatch is fault-isolated by `hookFold`. -/
def pipelineParse {σ : Type} (ps : List (ParserPlugin σ)) (uri md : String)
    (tree : MdNode) (parseYaml : String → Except String Props)
    (mergeProps : σ → Props → σ) (init : σ) : σ × List LogEntry :=
  let l0 := (hookFold uri "onWillParseMarkdown"
      (fun p note => (p.onWillParseMarkdown).map fun f => (f md).map fun _ => note)
      ps init).2
  let a1 := hookFold uri "onWillVisitTree"
      (fun p note => (p.onWillVisitTree).map fun f => f tree note) ps init
  let a2 := (tree.preorder).foldl (visitStep ps uri md parseYaml mergeProps)
      (a1.1, l0 ++ a1.2)
  let a3 := hookFold uri "onDidVisitTree"
      (fun p note => (p.onDidVisitTree).map fun f => f tree note md) ps a2.1
  (a3.1, a2.2 ++ a3.2)

/-- A plugin all of whose hooks throw. -/
def throwingPlugin (σ : Type) (nm : String) : ParserPlugin σ :=
  ⟨nm, some fun _ => .error "boom",
       some fun _ _ => .error "boom",
       some fun _ _ _ => .error "boom",
       some fun _ _ _ => .error "boom",
       some fun _ _ _ => .error "boom"⟩

/-! ### `NoteLinkDefinition` and its formatting (resource model)

`NoteLinkDefinition.format` is the source's static method.  Re-parsing a
definition line is performed by the external remark-parse library (not in
src/).  Modelled from the spec: a `[label]: url "title"` reference
definition — label between brackets, then `:`, then the url (between `<` `>`
if wrapped), then an optional double-quoted title. -/

/-- A legacy reference-style link definition (`title` optional). -/
structure NoteLinkDefinition where
  label : String
  url : String
  title : Option String
deriving Repr, DecidableEq

/-- JavaScript `s.indexOf(c)`: first index of `c`, or `-1`. -/
def jsIndexOf (s : String) (c : Char) : Int :=
  match s.data.findIdx? (· == c) with
  | some i => (i : Int)
  | none => -1

/-- `NoteLinkDefinition.format`: `[label]: url` with the url wrapped in
angle brackets when `url.indexOf(' ') > 0`, followed by ` "title"` when the
title is truthy (a missing or empty title is omitted). -/
def NoteLinkDefinition.format (d : NoteLinkDefinition) : String :=
  let url := if jsIndexOf d.url ' ' > 0 then "<" ++ d.url ++ ">" else d.url
  let text := "[" ++ d.label ++ "]: " ++ url
  match d.title with
  | some t => if t = "" then text else text ++ " \"" ++ t ++ "\""
  | none => text

/-- Modelled from the spec: after the url of a definition line, an optional
double-quoted title may follow (separated by spaces); anything else fails. -/
def finishTitle (label url : List Char) (r : List Char) : Option NoteLinkDefinition :=
  match r.dropWhile (· == ' ') with
  | [] => some ⟨String.mk label, String.mk url, none⟩
  | c :: r2 =>
    if c = '"' then
      match r2.dropWhile (· ≠ '"') with
      | [c2] =>
        if c2 = '"' then
          some ⟨String.mk label, String.mk url, some (String.mk (r2.takeWhile (· ≠ '"')))⟩
        else none
      | _ => none
    else none

/-- Modelled from the spec: re-parsing of a reference link definition
(`[label]: url "title"`, url optionally wrapped in `<` `>`), as performed by
the external remark-parse library on the formatted text. -/
def parseDef (s : String) : Option NoteLinkDefinition :=
  match s.data with
  | [] => none
  | c0 :: rest =>
    if c0 = '[' then
      match rest.dropWhile (· ≠ ']') with
      | c1 :: c2 :: rest2 =>
        if c1 = ']' ∧ c2 = ':' then
          match rest2.dropWhile (· == ' ') with
          | [] => none
          | c3 :: r4 =>
            if c3 = '<' then
              match r4.dropWhile (· ≠ '>') with
              | c4 :: r5 =>
                if c4 = '>' then
                  finishTitle (rest.takeWhile (· ≠ ']')) (r4.takeWhile (· ≠ '>')) r5
                else none
              | [] => none
            else
              if ((c3 :: r4).takeWhile (· ≠ ' ')).isEmpty then none
              else finishTitle (rest.takeWhile (· ≠ ']')) ((c3 :: r4).takeWhile (· ≠ ' '))
                ((c3 :: r4).dropWhile (· ≠ ' '))
        else none
      | _ => none
    else none

/-! ### Auxiliary definitions used by the proofs -/

/-- Numeric value of a little-endian digit list (inverse of `natDigits`). -/
def digitsVal : List Nat → Nat
  | [] => 0
  | d :: ds => d + 10 * digitsVal ds

/-- The plugin state after `onWillVisitTree` and all `visit` dispatches. -/
def finalVisitState (tree : MdNode) : PluginState :=
  visitAll initState tree.preorder

/-- The tagged sections of a full run before the final sort (in push
order, oldest first). -/
def rawSections (tree : MdNode) : List (Origin × Section) :=
  ((popAll (astPointToFoamPosition tree.npos.stop) (finalVisitState tree).stack
    (finalVisitState tree).slugger (finalVisitState tree).sections).2.2).reverse

/-! ### Concrete input trees used by the counterexamples and witnesses -/

/-- The tree of `"# Title\n"`. -/
def c1tree : MdNode :=
  .node 0 .root 0 "" ⟨⟨1, 1⟩, ⟨2, 1⟩⟩ [
    .node 1 .heading 1 "" ⟨⟨1, 1⟩, ⟨1, 8⟩⟩ [.node 2 .text 0 "Title" ⟨⟨1, 3⟩, ⟨1, 8⟩⟩ []]]

/-- The tree of `"# T ^t1\n"` (heading with trailing block id). -/
def w1tree : MdNode :=
  .node 0 .root 0 "" ⟨⟨1, 1⟩, ⟨2, 1⟩⟩ [
    .node 1 .heading 1 "" ⟨⟨1, 1⟩, ⟨1, 8⟩⟩ [.node 2 .text 0 "T ^t1" ⟨⟨1, 3⟩, ⟨1, 8⟩⟩ []]]

/-- The heading section emitted for `w1tree`. -/
def w1sec : Origin × Section :=
  (.heading, ⟨"T", ⟨⟨0, 0⟩, ⟨1, 0⟩⟩, some "t", ["t", "^t1", "t1"]⟩)

/-- The tree of `"Some text.\n^blk-1\n"` (spec Scenario 3). -/
def c2tree : MdNode :=
  .node 0 .root 0 "" ⟨⟨1, 1⟩, ⟨3, 1⟩⟩ [
    .node 1 .paragraph 0 "" ⟨⟨1, 1⟩, ⟨2, 7⟩⟩
      [.node 2 .text 0 "Some text.\n^blk-1" ⟨⟨1, 1⟩, ⟨2, 7⟩⟩ []]]

/-- The tree of `"# A\n\n\n# B\n"` (heading closed by a sibling heading
across blank lines). -/
def c3tree : MdNode :=
  .node 0 .root 0 "" ⟨⟨1, 1⟩, ⟨5, 1⟩⟩ [
    .node 1 .heading 1 "" ⟨⟨1, 1⟩, ⟨1, 4⟩⟩ [.node 2 .text 0 "A" ⟨⟨1, 3⟩, ⟨1, 4⟩⟩ []],
    .node 3 .heading 1 "" ⟨⟨4, 1⟩, ⟨4, 4⟩⟩ [.node 4 .text 0 "B" ⟨⟨4, 3⟩, ⟨4, 4⟩⟩ []]]

/-- The section emitted for heading `A` of `c3tree`. -/
def c3secA : Origin × Section :=
  (.heading, ⟨"A", ⟨⟨0, 0⟩, ⟨3, 0⟩⟩, some "a", ["a"]⟩)

/-- A tree with two block-identified paragraphs starting on the same line,
the one at the larger character first (positions as the black-box tree
builder delivers them; nothing in the plugin constrains siblings to distinct
lines). -/
def c4tree : MdNode :=
  .node 0 .root 0 "" ⟨⟨1, 1⟩, ⟨1, 20⟩⟩ [
    .node 1 .paragraph 0 "" ⟨⟨1, 7⟩, ⟨1, 15⟩⟩ [.node 2 .text 0 "a ^x1" ⟨⟨1, 7⟩, ⟨1, 15⟩⟩ []],
    .node 3 .paragraph 0 "" ⟨⟨1, 1⟩, ⟨1, 6⟩⟩ [.node 4 .text 0 "b ^x2" ⟨⟨1, 1⟩, ⟨1, 6⟩⟩ []]]

/-- The tree of `"- item one ^li-1\n- item two\n"` (spec Scenario 4). -/
def c10tree : MdNode :=
  .node 0 .root 0 "" ⟨⟨1, 1⟩, ⟨3, 1⟩⟩ [
    .node 1 .listN 0 "" ⟨⟨1, 1⟩, ⟨2, 11⟩⟩ [
      .node 2 .listItem 0 "" ⟨⟨1, 1⟩, ⟨1, 17⟩⟩
        [.node 3 .paragraph 0 "" ⟨⟨1, 3⟩, ⟨1, 17⟩⟩
          [.node 4 .text 0 "item one ^li-1" ⟨⟨1, 3⟩, ⟨1, 17⟩⟩ []]],
      .node 5 .listItem 0 "" ⟨⟨2, 1⟩, ⟨2, 11⟩⟩
        [.node 6 .paragraph 0 "" ⟨⟨2, 3⟩, ⟨2, 11⟩⟩
          [.node 7 .text 0 "item two" ⟨⟨2, 3⟩, ⟨2, 11⟩⟩ []]]]]

/-- The section emitted for the id-less list item of `c10tree`. -/
def c10sec : Section := ⟨"item two", ⟨⟨1, 0⟩, ⟨1, 10⟩⟩, none, []⟩

/-- A front-matter node (for exercising the `onDidFindProperties`
dispatch). -/
def yamlNode : MdNode := .node 1 .yaml 0 "k: v" ⟨⟨1, 1⟩, ⟨3, 1⟩⟩ []

/-- A tree whose only child is a front-matter node. -/
def yamlTree : MdNode :=
  .node 0 .root 0 "" ⟨⟨1, 1⟩, ⟨3, 1⟩⟩ [yamlNode]

/-! ## Lemmas about the slug generator -/

theorem natDigits_lt_ten : ∀ (fuel n d : Nat), d ∈ natDigits fuel n → d < 10 := by
  intro fuel
  induction fuel with
  | zero => intro n d h; simp [natDigits] at h
  | succ f ih =>
    intro n d h
    by_cases hn : n = 0
    · simp [natDigits, hn] at h
    · rw [natDigits, if_neg hn] at h
      rcases List.mem_cons.mp h with h | h
      · omega
      · exact ih _ _ h

theorem digitsVal_natDigits : ∀ (fuel n : Nat), n ≤ fuel → digitsVal (natDigits fuel n) = n := by
  intro fuel
  induction fuel with
  | zero =>
    intro n h
    have : n = 0 := Nat.le_zero.mp h
    simp [this, natDigits, digitsVal]
  | succ f ih =>
    intro n h
    by_cases hn : n = 0
    · simp [natDigits, hn, digitsVal]
    · have h1 : n / 10 ≤ f := by omega
      rw [natDigits, if_neg hn, digitsVal, ih _ h1]
      omega

theorem digitChar_inj_lt : ∀ a b : Nat, a < 10 → b < 10 →
    Nat.digitChar a = Nat.digitChar b → a = b := by
  intro a b ha hb
  interval_cases a <;> interval_cases b <;> decide

theorem map_digitChar_inj : ∀ (l₁ l₂ : List Nat), (∀ d ∈ l₁, d < 10) → (∀ d ∈ l₂, d < 10) →
    l₁.map Nat.digitChar = l₂.map Nat.digitChar → l₁ = l₂ := by
  intro l₁
  induction l₁ with
  | nil => intro l₂ _ _ h; cases l₂ <;> simp_all
  | cons a t ih =>
    intro l₂ h1 h2 h
    cases l₂ with
    | nil => simp_all
    | cons b t2 =>
      simp only [List.map_cons, List.cons.injEq] at h
      have hab : a = b := digitChar_inj_lt a b (h1 a (by simp)) (h2 b (by simp)) h.1
      subst hab
      have ht : t = t2 :=
        ih t2 (fun d hd => h1 d (by simp [hd])) (fun d hd => h2 d (by simp [hd])) h.2
      simp [ht]

theorem natDecL_inj {m n : Nat} (h : natDecL m = natDecL n) : m = n := by
  unfold natDecL at h
  have h2 : (natDigits m m).map Nat.digitChar = (natDigits n n).map Nat.digitChar :=
    List.reverse_inj.mp h
  have h3 : natDigits m m = natDigits n n :=
    map_digitChar_inj _ _ (fun d hd => natDigits_lt_ten m m d hd)
      (fun d hd => natDigits_lt_ten n n d hd) h2
  have hm := digitsVal_natDigits m m le_rfl
  have hn := digitsVal_natDigits n n le_rfl
  rw [h3] at hm
  exact hm.symm.trans hn

theorem cand_inj {base : String} {j k : Nat} (h : cand base j = cand base k) : j = k := by
  unfold cand at h
  have h1 : base.data ++ '-' :: natDecL j = base.data ++ '-' :: natDecL k :=
    congrArg String.data h
  have h2 := List.append_cancel_left h1
  have h3 : natDecL j = natDecL k := by injection h2
  exact natDecL_inj h3

theorem exists_free_cand (used : List String) (base : String) (k : Nat) :
    ∃ i, k ≤ i ∧ i < k + (used.length + 1) ∧ cand base i ∉ used := by
  by_contra hc
  push_neg at hc
  have hinj : Function.Injective fun j : Nat => cand base (k + j) := by
    intro a b hab
    have := cand_inj hab
    omega
  have hnd : ((List.range (used.length + 1)).map fun j => cand base (k + j)).Nodup :=
    List.Nodup.map hinj (List.nodup_range _)
  have hsub : ((List.range (used.length + 1)).map fun j => cand base (k + j)).toFinset
      ⊆ used.toFinset := by
    intro x hx
    rw [List.mem_toFinset] at hx ⊢
    simp only [List.mem_map, List.mem_range] at hx
    obtain ⟨j, hj, rfl⟩ := hx
    exact hc (k + j) (by omega) (by omega)
  have h1 : ((List.range (used.length + 1)).map fun j => cand base (k + j)).toFinset.card
      = used.length + 1 := by
    rw [List.toFinset_card_of_nodup hnd]
    simp
  have h3 := Finset.card_le_card hsub
  have h4 : used.toFinset.card ≤ used.length := List.toFinset_card_le used
  omega

theorem findSuffix_not_mem (base : String) (used : List String) :
    ∀ (fuel k : Nat), (∃ i, k ≤ i ∧ i < k + fuel ∧ cand base i ∉ used) →
      findSuffix base used k fuel ∉ used := by
  intro fuel
  induction fuel with
  | zero =>
    intro k h
    obtain ⟨i, h1, h2, _⟩ := h
    omega
  | succ f ih =>
    intro k h
    obtain ⟨i, h1, h2, h3⟩ := h
    by_cases hk : cand base k ∈ used
    · have hik : i ≠ k := fun he => h3 (he ▸ hk)
      rw [findSuffix, if_pos hk]
      exact ih (k + 1) ⟨i, by omega, by omega, h3⟩
    · rw [findSuffix, if_neg hk]
      exact hk

theorem slug_not_mem (sl : Slugger) (label : String) : (sl.slug label).1 ∉ sl.used := by
  show (if baseSlug label ∈ sl.used then
      findSuffix (baseSlug label) sl.used 1 (sl.used.length + 1)
    else baseSlug label) ∉ sl.used
  by_cases hb : baseSlug label ∈ sl.used
  · rw [if_pos hb]
    exact findSuffix_not_mem _ _ _ 1 (exists_free_cand sl.used (baseSlug label) 1)
  · rw [if_neg hb]
    exact hb

theorem slug_used (sl : Slugger) (label : String) :
    ((sl.slug label).2).used = (sl.slug label).1 :: sl.used := rfl

/-! ## Lemmas about the section parser plugin -/

theorem splitTrailingBlockId_caret {s before tok : String}
    (h : splitTrailingBlockId s = some (before, tok)) : tok.data.head? = some '^' := by
  unfold splitTrailingBlockId at h
  dsimp only [] at h
  split at h
  · split at h
    · exact absurd h (by simp)
    · split at h
      · rw [Option.some.injEq, Prod.mk.injEq] at h
        rw [← h.2]
        rfl
      · split at h
        · rw [Option.some.injEq, Prod.mk.injEq] at h
          rw [← h.2]
          rfl
        · exact absurd h (by simp)
  · exact absurd h (by simp)

theorem mkHeadingSection_canonical (item : StackItem) (stop : FoamPos) (slug : String) :
    (mkHeadingSection item stop slug).canonicalId = some slug := rfl

theorem mkHeadingSection_stop (item : StackItem) (stop : FoamPos) (slug : String) :
    (mkHeadingSection item stop slug).range.stop = stop := rfl

theorem mkHeadingSection_shape {item : StackItem} {stop : FoamPos} {slug : String}
    (hItem : ItemOK item) : HeadingShape (mkHeadingSection item stop slug) := by
  refine ⟨slug, rfl, ?_⟩
  cases hb : item.blockId with
  | none => exact Or.inl (by simp [mkHeadingSection, hb])
  | some b => exact Or.inr ⟨b, hItem b hb, by simp [mkHeadingSection, hb]⟩

theorem popEmit_stack (level : Nat) (hStart : FoamPos) :
    ∀ (stack : List StackItem) (sl : Slugger) (secs : List (Origin × Section)),
      (∃ pre, stack = pre ++ (popEmit level hStart stack sl secs).1) ∧
      ((popEmit level hStart stack sl secs).1 = [] ∨
        ∃ t ts, (popEmit level hStart stack sl secs).1 = t :: ts ∧ t.level < level) := by
  intro stack
  induction stack with
  | nil => intro sl secs; exact ⟨⟨[], rfl⟩, Or.inl rfl⟩
  | cons top rest ih =>
    intro sl secs
    by_cases hl : level ≤ top.level
    · rw [popEmit, if_pos hl]
      obtain ⟨⟨pre, hpre⟩, hd⟩ := ih (sl.slug top.label).2
        ((.heading, mkHeadingSection top hStart (sl.slug top.label).1) :: secs)
      refine ⟨⟨top :: pre, ?_⟩, hd⟩
      rw [List.cons_append, ← hpre]
    · rw [popEmit, if_neg hl]
      exact ⟨⟨[], rfl⟩, Or.inr ⟨top, rest, rfl, by omega⟩⟩

theorem popEmit_mem (level : Nat) (hStart : FoamPos) :
    ∀ (stack : List StackItem) (sl : Slugger) (secs : List (Origin × Section)),
      ∀ os ∈ (popEmit level hStart stack sl secs).2.2,
        os ∈ secs ∨ ∃ item slug, item ∈ stack ∧
          os = (.heading, mkHeadingSection item hStart slug) := by
  intro stack
  induction stack with
  | nil => intro sl secs os h; exact Or.inl h
  | cons top rest ih =>
    intro sl secs os h
    by_cases hl : level ≤ top.level
    · rw [popEmit, if_pos hl] at h
      rcases ih _ _ os h with h1 | ⟨item, slug, hi, he⟩
      · rcases List.mem_cons.mp h1 with h2 | h2
        · exact Or.inr ⟨top, (sl.slug top.label).1, List.mem_cons_self _ _, h2⟩
        · exact Or.inl h2
      · exact Or.inr ⟨item, slug, List.mem_cons_of_mem _ hi, he⟩
    · rw [popEmit, if_neg hl] at h
      exact Or.inl h

theorem hIds_cons_heading (sec : Section) (secs : List (Origin × Section)) (c : String)
    (h : sec.canonicalId = some c) :
    hIds ((Origin.heading, sec) :: secs) = c :: hIds secs := by
  simp [hIds, List.filterMap_cons, h]

theorem hIds_cons_block (sec : Section) (secs : List (Origin × Section)) :
    hIds ((Origin.block, sec) :: secs) = hIds secs := by
  simp [hIds, List.filterMap_cons]

theorem popEmit_slugInv (level : Nat) (hStart : FoamPos) :
    ∀ (stack : List StackItem) (sl : Slugger) (secs : List (Origin × Section)),
      sl.used.Nodup → (∀ c ∈ hIds secs, c ∈ sl.used) → (hIds secs).Nodup →
      ((popEmit level hStart stack sl secs).2.1.used.Nodup ∧
       (∀ c ∈ hIds (popEmit level hStart stack sl secs).2.2,
          c ∈ (popEmit level hStart stack sl secs).2.1.used) ∧
       (hIds (popEmit level hStart stack sl secs).2.2).Nodup) := by
  intro stack
  induction stack with
  | nil => intro sl secs h1 h2 h3; exact ⟨h1, h2, h3⟩
  | cons top rest ih =>
    intro sl secs h1 h2 h3
    by_cases hl : level ≤ top.level
    · rw [popEmit, if_pos hl]
      have hout := slug_not_mem sl top.label
      have hcons : hIds ((Origin.heading, mkHeadingSection top hStart (sl.slug top.label).1)
          :: secs) = (sl.slug top.label).1 :: hIds secs :=
        hIds_cons_heading _ _ _ rfl
      refine ih _ _ ?_ ?_ ?_
      · rw [slug_used]
        exact List.Nodup.cons hout h1
      · rw [hcons, slug_used]
        intro c hc
        rcases List.mem_cons.mp hc with h4 | h4
        · exact h4 ▸ List.mem_cons_self _ _
        · exact List.mem_cons_of_mem _ (h2 c h4)
      · rw [hcons]
        refine List.Nodup.cons ?_ h3
        intro hmem
        exact hout (h2 _ hmem)
    · rw [popEmit, if_neg hl]
      exact ⟨h1, h2, h3⟩

theorem pushHeading_inv {st : PluginState} {label : String} {level : Nat} {start : FoamPos}
    {blockId : Option String}
    (hOK : ItemOK ⟨label, level, start, blockId⟩) (h : Inv st) :
    Inv (pushHeading st label level start blockId) := by
  obtain ⟨hstack, hsecs, hnodup, hsub, hhnodup, hlev⟩ := h
  have hmem := popEmit_mem level start st.stack st.slugger st.sections
  have hinv := popEmit_slugInv level start st.stack st.slugger st.sections hnodup hsub hhnodup
  unfold pushHeading
  set r := popEmit level start st.stack st.slugger st.sections with hr
  obtain ⟨⟨pre, hpre⟩, hd⟩ := popEmit_stack level start st.stack st.slugger st.sections
  rw [← hr] at hpre hd
  have hsubl : List.Sublist r.1 st.stack := by
    rw [hpre]
    exact List.sublist_append_right pre _
  have hrest : (r.1.map StackItem.level).Pairwise (· > ·) :=
    List.Pairwise.sublist (List.Sublist.map _ hsubl) hlev
  refine ⟨?_, ?_, ?_, ?_, ?_, ?_⟩
  · intro item hitem
    rcases List.mem_cons.mp hitem with rfl | h2
    · exact hOK
    · exact hstack item (hsubl.mem h2)
  · intro os hos
    rcases hmem os hos with h2 | ⟨i, sg, hi, rfl⟩
    · exact hsecs os h2
    · exact mkHeadingSection_shape (hstack i hi)
  · exact hinv.1
  · exact hinv.2.1
  · exact hinv.2.2
  · rw [List.map_cons]
    refine List.pairwise_cons.mpr ⟨?_, hrest⟩
    intro b hb
    show level > b
    rcases hd with hnil | ⟨t, ts, hts, htl⟩
    · rw [hnil] at hb
      simp at hb
    · rw [hts] at hb hrest
      rw [List.map_cons] at hb hrest
      rcases List.mem_cons.mp hb with rfl | h2
      · exact htl
      · have := (List.pairwise_cons.mp hrest).1 b h2
        omega

theorem addBlock_inv {st : PluginState} {sec : Section} {pids : List Nat}
    (hshape : BlockShape sec) (h : Inv st) :
    Inv { slugger := st.slugger, processed := pids, stack := st.stack,
          sections := (Origin.block, sec) :: st.sections } := by
  obtain ⟨hstack, hsecs, hnodup, hsub, hhnodup, hlev⟩ := h
  refine ⟨hstack, ?_, hnodup, ?_, ?_, hlev⟩
  · intro os hos
    rcases List.mem_cons.mp hos with rfl | h2
    · exact hshape
    · exact hsecs os h2
  · rw [hIds_cons_block]
    exact hsub
  · rw [hIds_cons_block]
    exact hhnodup

theorem visitNode_inv {st : PluginState} (n : MdNode) (h : Inv st) : Inv (visitNode st n) := by
  unfold visitNode
  dsimp only
  split
  · split
    · exact h
    · split
      case _ before tok heq =>
        refine pushHeading_inv ?_ h
        intro b hb
        injection hb with hb
        exact hb ▸ splitTrailingBlockId_caret heq
      case _ =>
        exact pushHeading_inv (fun b hb => Option.noConfusion hb) h
  · split
    · by_cases hli : n.ntype = NodeType.listItem
      · rw [show (if n.ntype = NodeType.listItem then getListItemText n
            else getTextFromChildren n) = getListItemText n from if_pos hli]
        split
        · exact addBlock_inv (Or.inl ⟨_, rfl, rfl⟩) h
        · rw [if_pos hli]
          exact addBlock_inv (Or.inr ⟨rfl, rfl⟩) h
      · rw [show (if n.ntype = NodeType.listItem then getListItemText n
            else getTextFromChildren n) = getTextFromChildren n from if_neg hli]
        split
        · exact addBlock_inv (Or.inl ⟨_, rfl, rfl⟩) h
        · rw [if_neg hli]
          exact h
    · exact h

theorem initState_inv : Inv initState := by
  refine ⟨?_, ?_, ?_, ?_, ?_, ?_⟩ <;> simp [initState, hIds, Slugger.slug]

theorem visitAll_inv : ∀ (ns : List MdNode) (st : PluginState), Inv st → Inv (visitAll st ns) := by
  intro ns
  induction ns with
  | nil => intro st h; exact h
  | cons n rest ih =>
    intro st h
    have : visitAll st (n :: rest) = visitAll (visitNode st n) rest := rfl
    rw [this]
    exact ih _ (visitNode_inv n h)

/-! ## Lemmas about the final sort -/

theorem insertByLine_perm (x : Origin × Section) (l : List (Origin × Section)) :
    List.Perm (insertByLine x l) (x :: l) := by
  induction l with
  | nil => exact List.Perm.refl _
  | cons y ys ih =>
    by_cases hc : x.2.range.start.line ≤ y.2.range.start.line
    · rw [insertByLine, if_pos hc]
    · rw [insertByLine, if_neg hc]
      exact (ih.cons y).trans (List.Perm.swap x y ys)

theorem sortByLine_perm (l : List (Origin × Section)) : List.Perm (sortByLine l) l := by
  induction l with
  | nil => exact List.Perm.refl _
  | cons x xs ih =>
    rw [sortByLine]
    exact (insertByLine_perm x (sortByLine xs)).trans (ih.cons x)

theorem insertByLine_sorted {x : Origin × Section} {l : List (Origin × Section)}
    (h : l.Pairwise fun a b => a.2.range.start.line ≤ b.2.range.start.line) :
    (insertByLine x l).Pairwise fun a b => a.2.range.start.line ≤ b.2.range.start.line := by
  induction l with
  | nil => simp [insertByLine]
  | cons y ys ih =>
    obtain ⟨hy, hys⟩ := List.pairwise_cons.mp h
    by_cases hc : x.2.range.start.line ≤ y.2.range.start.line
    · rw [insertByLine, if_pos hc]
      refine List.pairwise_cons.mpr ⟨?_, h⟩
      intro b hb
      rcases List.mem_cons.mp hb with rfl | h2
      · exact hc
      · exact le_trans hc (hy b h2)
    · rw [insertByLine, if_neg hc]
      refine List.pairwise_cons.mpr ⟨?_, ih hys⟩
      intro b hb
      have hb2 : b ∈ x :: ys := (insertByLine_perm x ys).mem_iff.mp hb
      rcases List.mem_cons.mp hb2 with rfl | h2
      · omega
      · exact hy b h2

theorem sortByLine_sorted (l : List (Origin × Section)) :
    (sortByLine l).Pairwise fun a b => a.2.range.start.line ≤ b.2.range.start.line := by
  induction l with
  | nil => simp [sortByLine]
  | cons x xs ih =>
    rw [sortByLine]
    exact insertByLine_sorted ih

/-! ## Lemmas about the full run -/

theorem runPlugin_eq (tree : MdNode) : runPlugin tree = sortByLine (rawSections tree) := rfl

theorem runPlugin_perm (tree : MdNode) : List.Perm (runPlugin tree) (rawSections tree) := by
  rw [runPlugin_eq]
  exact sortByLine_perm _

theorem rawSections_mem_spec (tree : MdNode) :
    ∀ os ∈ rawSections tree,
      os ∈ (finalVisitState tree).sections ∨
      ∃ item slug, item ∈ (finalVisitState tree).stack ∧
        os = (.heading, mkHeadingSection item (astPointToFoamPosition tree.npos.stop) slug) := by
  intro os hos
  rw [rawSections, List.mem_reverse] at hos
  exact popEmit_mem 0 _ _ _ _ os hos

theorem runPlugin_mem_secOK (tree : MdNode) : ∀ os ∈ runPlugin tree, SecOK os := by
  intro os hos
  have hinv := visitAll_inv tree.preorder initState initState_inv
  have hos2 := (runPlugin_perm tree).mem_iff.mp hos
  rcases rawSections_mem_spec tree os hos2 with h2 | ⟨i, sg, hi, rfl⟩
  · exact hinv.2.1 os h2
  · exact mkHeadingSection_shape (hinv.1 i hi)

theorem runPlugin_hIds_nodup (tree : MdNode) : (hIds (runPlugin tree)).Nodup := by
  have hinv := visitAll_inv tree.preorder initState initState_inv
  have hraw : (hIds ((popAll (astPointToFoamPosition tree.npos.stop)
      (finalVisitState tree).stack (finalVisitState tree).slugger
      (finalVisitState tree).sections).2.2)).Nodup :=
    (popEmit_slugInv 0 _ _ _ _ hinv.2.2.1 hinv.2.2.2.1 hinv.2.2.2.2.1).2.2
  have hperm : List.Perm (hIds (runPlugin tree))
      (hIds ((popAll (astPointToFoamPosition tree.npos.stop)
      (finalVisitState tree).stack (finalVisitState tree).slugger
      (finalVisitState tree).sections).2.2)) := by
    refine List.Perm.filterMap _ ?_
    exact (runPlugin_perm tree).trans (List.reverse_perm _)
  exact hraw.perm hperm.symm

/-! ## Lemmas about the range end of heading sections -/

theorem visitNode_stop {P : FoamPos → Prop} {st : PluginState} (n : MdNode)
    (hsec : ∀ os ∈ st.sections, os.1 = .heading → P os.2.range.stop)
    (hn : n.ntype = .heading → P (astPositionToFoamRange n.npos).start) :
    ∀ os ∈ (visitNode st n).sections, os.1 = .heading → P os.2.range.stop := by
  unfold visitNode
  dsimp only
  split
  case isTrue hh =>
    have hP := hn hh
    have key : ∀ label blockId, ∀ os ∈ (pushHeading st label n.ndepth
        (astPositionToFoamRange n.npos).start blockId).sections,
        os.1 = Origin.heading → P os.2.range.stop := by
      intro label blockId os hos _
      rcases popEmit_mem n.ndepth (astPositionToFoamRange n.npos).start st.stack st.slugger
          st.sections os hos with h2 | ⟨i, sg, _, rfl⟩
      · exact hsec os h2 (by assumption)
      · exact hP
    split
    · exact fun os hos h => hsec os hos h
    · split
      · exact key _ _
      · exact key _ _
  · split
    · split
      · intro os hos hh
        rcases List.mem_cons.mp hos with rfl | h2
        · exact absurd hh (by simp)
        · exact hsec os h2 hh
      · split
        · intro os hos hh
          rcases List.mem_cons.mp hos with rfl | h2
          · exact absurd hh (by simp)
          · exact hsec os h2 hh
        · exact hsec
    · exact hsec

theorem visitAll_stop {P : FoamPos → Prop} :
    ∀ (ns : List MdNode) (st : PluginState),
      (∀ os ∈ st.sections, os.1 = .heading → P os.2.range.stop) →
      (∀ n ∈ ns, n.ntype = .heading → P (astPositionToFoamRange n.npos).start) →
      ∀ os ∈ (visitAll st ns).sections, os.1 = .heading → P os.2.range.stop := by
  intro ns
  induction ns with
  | nil => intro st hsec _; exact hsec
  | cons n rest ih =>
    intro st hsec hns
    have : visitAll st (n :: rest) = visitAll (visitNode st n) rest := rfl
    rw [this]
    exact ih _ (visitNode_stop n hsec (hns n (List.mem_cons_self _ _)))
      (fun m hm => hns m (List.mem_cons_of_mem _ hm))

/-! ## Claim theorems for the section parser plugin -/

/-- C7: for every document and at every moment of the traversal — in
particular at the moment each heading is pushed — every entry below the top
of the section stack has a strictly smaller level than every entry above it,
so the pop-while-top-level-is-greater-or-equal loop preserves strictly
increasing levels from bottom to top (the stack is modelled head-first, so
the mapped level list is strictly decreasing). -/
theorem stack_levels_invariant (ns : List MdNode) :
    ((visitAll initState ns).stack.map StackItem.level).Pairwise (· > ·) :=
  (visitAll_inv ns initState initState_inv).2.2.2.2.2

/-- C8: within one parsed document the canonical slugs of all heading
Sections are pairwise distinct (`hIds` lists the `canonicalId` of every
heading-branch Section of the run): the single slug-generator instance is
reset at `onWillVisitTree` and records every emitted identifier, appending a
numeric suffix on collision. -/
theorem heading_slugs_distinct (tree : MdNode) : (hIds (runPlugin tree)).Nodup :=
  runPlugin_hIds_nodup tree

/-- C1 (amended): every heading Section emitted by the plugin (closed by a
later heading or at end of document) has `linkableIds` equal to exactly the
canonical slug followed, when the heading carried a trailing block
identifier, by the caret-prefixed and caret-stripped forms of that
identifier; the raw heading label is not an element (see the counterexample)
and no deduplication is applied. -/
theorem heading_linkableIds_amended (tree : MdNode) (os : Origin × Section)
    (hmem : os ∈ runPlugin tree) (hh : os.1 = Origin.heading) :
    ∃ c, os.2.canonicalId = some c ∧
      (os.2.linkableIds = [c] ∨
        ∃ b, b.data.head? = some '^' ∧ os.2.linkableIds = [c, b, b.drop 1]) := by
  have h := runPlugin_mem_secOK tree os hmem
  obtain ⟨o, sec⟩ := os
  cases o
  · exact h
  · exact absurd hh (by simp)

/-- C1 (counterexample): for the document `"# Title\n"` the emitted heading
Section's `linkableIds` is `["title"]`; the raw heading label `"Title"` is
not a member, refuting the claim that `linkableIds` contains the raw
label. -/
theorem heading_linkableIds_counterexample :
    noteSections c1tree = [⟨"Title", ⟨⟨0, 0⟩, ⟨1, 0⟩⟩, some "title", ["title"]⟩] ∧
    ((noteSections c1tree).all fun s => !(s.linkableIds.contains "Title")) = true := by
  decide

/-- C1 (witness): the amended claim evaluated on the document
`"# T ^t1\n"`, whose heading carries the trailing block id `^t1`. -/
theorem heading_linkableIds_amended_witness :
    (w1sec ∈ runPlugin w1tree ∧ w1sec.1 = Origin.heading) ∧
    (∃ c, w1sec.2.canonicalId = some c ∧
      (w1sec.2.linkableIds = [c] ∨
        ∃ b, b.data.head? = some '^' ∧ w1sec.2.linkableIds = [c, b, b.drop 1])) :=
  ⟨⟨by decide, rfl⟩, heading_linkableIds_amended w1tree w1sec (by decide) rfl⟩

/-- C3 (amended): every heading Section's range ends exactly at the start
position (line and character) of the heading node that closed it, or at the
document end position for Sections closed by end-of-document finalization;
no trailing-blank-line trimming is applied. -/
theorem heading_range_amended (tree : MdNode) (os : Origin × Section)
    (hmem : os ∈ runPlugin tree) (hh : os.1 = Origin.heading) :
    (∃ n ∈ tree.preorder, n.ntype = NodeType.heading ∧
        os.2.range.stop = (astPositionToFoamRange n.npos).start) ∨
    os.2.range.stop = astPointToFoamPosition tree.npos.stop := by
  have hos2 := (runPlugin_perm tree).mem_iff.mp hmem
  rcases rawSections_mem_spec tree os hos2 with h2 | ⟨i, sg, hi, rfl⟩
  · refine @visitAll_stop (fun pos =>
      (∃ n ∈ tree.preorder, n.ntype = NodeType.heading ∧
        pos = (astPositionToFoamRange n.npos).start) ∨
      pos = astPointToFoamPosition tree.npos.stop)
      tree.preorder initState ?_ ?_ os h2 hh
    · intro os2 hos2 _
      exact absurd hos2 (by simp [initState])
    · intro m hm hmh
      exact Or.inl ⟨m, hm, hmh, rfl⟩
  · exact Or.inr rfl

/-- C3 (counterexample): for `"# A\n\n\n# B\n"` (heading `B` starts at line
3), Section `A`'s range ends at position `(3, 0)` — the closing heading's
own start — not at the line immediately preceding it (line 2, column 0) nor
earlier after trailing-blank-line trimming; every emitted Section's end line
is ≥ 3. -/
theorem heading_range_counterexample :
    noteSections c3tree = [⟨"A", ⟨⟨0, 0⟩, ⟨3, 0⟩⟩, some "a", ["a"]⟩,
      ⟨"B", ⟨⟨3, 0⟩, ⟨4, 0⟩⟩, some "b", ["b"]⟩] ∧
    ((noteSections c3tree).all fun s => decide (3 ≤ s.range.stop.line)) = true := by
  decide

/-- C3 (witness): the amended claim evaluated on `"# A\n\n\n# B\n"` at
Section `A`, which ends exactly at heading `B`'s start `(3, 0)`. -/
theorem heading_range_amended_witness :
    (c3secA ∈ runPlugin c3tree ∧ c3secA.1 = Origin.heading) ∧
    ((∃ n ∈ c3tree.preorder, n.ntype = NodeType.heading ∧
        c3secA.2.range.stop = (astPositionToFoamRange n.npos).start) ∨
      c3secA.2.range.stop = astPointToFoamPosition c3tree.npos.stop) :=
  ⟨⟨by decide, rfl⟩, heading_range_amended c3tree c3secA (by decide) rfl⟩

/-- C4 (amended): after `onDidVisitTree`, the sections list is sorted by
range start line in ascending order; the comparator
`a.range.start.line - b.range.start.line` ignores the character, so sections
sharing a start line keep their emission order (see the counterexample). -/
theorem sections_sorted_by_line (tree : MdNode) :
    (noteSections tree).Pairwise fun a b => a.range.start.line ≤ b.range.start.line := by
  unfold noteSections
  rw [runPlugin_eq]
  exact List.pairwise_map.mpr (sortByLine_sorted _)

/-- C4 (counterexample): for a tree with two block-identified paragraphs
starting on the same line at characters 6 and 0 (emitted in that order), the
final sections list starts `(0,6), (0,0)` — not sorted by start position
when comparing line first and then character. -/
theorem sections_sort_counterexample :
    ((noteSections c4tree).map fun s => s.range.start) = [⟨0, 6⟩, ⟨0, 0⟩] ∧
    ¬ (noteSections c4tree).Pairwise (fun a b =>
        a.range.start.line < b.range.start.line ∨
        (a.range.start.line = b.range.start.line ∧
          a.range.start.character ≤ b.range.start.character)) := by
  decide

/-- C10: for every emitted Section, `canonicalId` is defined iff
`linkableIds` is nonempty, and a defined `canonicalId` is always a member of
`linkableIds`. -/
theorem canonicalId_linkableIds_iff (tree : MdNode) (s : Section)
    (hmem : s ∈ noteSections tree) :
    (s.canonicalId ≠ none ↔ s.linkableIds ≠ []) ∧
    (∀ c, s.canonicalId = some c → c ∈ s.linkableIds) := by
  obtain ⟨os, hos, rfl⟩ := List.mem_map.mp hmem
  have h := runPlugin_mem_secOK tree os hos
  obtain ⟨o, sec⟩ := os
  cases o
  · obtain ⟨c, hc, hl⟩ := h
    refine ⟨⟨fun _ => ?_, fun _ => ?_⟩, fun c2 hc2 => ?_⟩
    · rcases hl with h1 | ⟨b, hb, h1⟩ <;> simp [h1]
    · simp [hc]
    · rw [hc] at hc2
      injection hc2 with hc2
      subst hc2
      rcases hl with h1 | ⟨b, hb, h1⟩ <;> simp [h1]
  · rcases h with ⟨c, hc, hl⟩ | ⟨hc, hl⟩
    · refine ⟨⟨fun _ => ?_, fun _ => ?_⟩, fun c2 hc2 => ?_⟩
      · simp [hl]
      · simp [hc]
      · rw [hc] at hc2
        injection hc2 with hc2
        subst hc2
        simp [hl]
    · refine ⟨⟨fun h2 => absurd hc h2, fun h2 => absurd hl h2⟩, fun c2 hc2 => ?_⟩
      rw [hc] at hc2
      exact absurd hc2 (by simp)

/-- C10 (witness): the invariant evaluated on the list-item document
`"- item one ^li-1\n- item two\n"` at the id-less second item, whose
`canonicalId` is undefined and whose `linkableIds` is empty. -/
theorem canonicalId_linkableIds_iff_witness :
    (c10sec ∈ noteSections c10tree) ∧
    ((c10sec.canonicalId ≠ none ↔ c10sec.linkableIds ≠ []) ∧
      (∀ c, c10sec.canonicalId = some c → c ∈ c10sec.linkableIds)) :=
  ⟨by decide, canonicalId_linkableIds_iff c10tree c10sec (by decide)⟩

/-- C2 (code bug, evaluation at the failing input): for the document
`"Some text.\n^blk-1\n"` the plugin emits exactly one Section with
`canonicalId = "blk-1"` and `linkableIds = ["blk-1"]`: the caret-prefixed
spelling `"^blk-1"` is not linkable, contradicting the documented contract
of `Section.linkableIds` (both spellings) in the resource model. -/
theorem block_linkableIds_failing_input :
    noteSections c2tree =
      [⟨"Some text.", ⟨⟨0, 0⟩, ⟨1, 6⟩⟩, some "blk-1", ["blk-1"]⟩] ∧
    ((noteSections c2tree).all fun s => !(s.linkableIds.contains "^blk-1")) = true := by
  decide

/-! ## Lemmas and claim theorem for the parse cache -/

theorem lookup_set {κ ρ : Type} [DecidableEq κ] (c : ParserCache κ ρ) (k : κ)
    (e : ParserCacheEntry ρ) : (c.set k e).lookup k = some e := by
  simp [ParserCache.set, ParserCache.lookup, List.find?]

theorem keysNodup_set {κ ρ : Type} [DecidableEq κ] {c : ParserCache κ ρ} (k : κ)
    (e : ParserCacheEntry ρ) (h : keysNodup c) : keysNodup (c.set k e) := by
  unfold keysNodup ParserCache.set at *
  rw [List.map_cons]
  refine List.Nodup.cons ?_ ?_
  · intro hk
    simp only [List.mem_map] at hk
    obtain ⟨p, hp, hpk⟩ := hk
    have h2 := (List.mem_filter.mp hp).2
    simp only [decide_not, Bool.not_eq_true', decide_eq_false_iff_not] at h2
    exact h2 hpk
  · exact List.Nodup.sublist (List.Sublist.map _ (List.filter_sublist _)) h

/-- C5: for every parse request through the cached parser, the checksum of
the raw text is computed and compared: on a cache hit with matching checksum
the stored resource is returned, the cache is unchanged and the underlying
parser is not invoked (`false` flag); otherwise the text is parsed, the
fresh resource is stored under the URI (replacing any prior entry) and
returned (`true` flag); and the at-most-one-entry-per-URI invariant is
preserved. -/
theorem cachedParse_spec {κ ρ : Type} [DecidableEq κ] (parseFn : κ → String → ρ)
    (hashFn : String → String) (uri : κ) (md : String) (c : ParserCache κ ρ) :
    (∀ e, c.lookup uri = some e → hashFn md = e.checksum →
        cachedParse parseFn hashFn uri md c = (e.resource, c, false)) ∧
    ((∀ e, c.lookup uri = some e → hashFn md ≠ e.checksum) →
        cachedParse parseFn hashFn uri md c =
          (parseFn uri md, c.set uri ⟨hashFn md, parseFn uri md⟩, true)) ∧
    (keysNodup c → keysNodup (cachedParse parseFn hashFn uri md c).2.1) := by
  refine ⟨?_, ?_, ?_⟩
  · intro e he hchk
    unfold cachedParse
    dsimp only
    rw [he]
    dsimp only
    rw [if_pos hchk]
  · intro hmiss
    unfold cachedParse
    dsimp only
    cases hc : c.lookup uri with
    | none => rfl
    | some e =>
      dsimp only
      rw [if_neg (hmiss e hc)]
  · intro h
    unfold cachedParse
    dsimp only
    cases hc : c.lookup uri with
    | none => exact keysNodup_set uri _ h
    | some e =>
      dsimp only
      by_cases hchk : hashFn md = e.checksum
      · rw [if_pos hchk]
        exact h
      · rw [if_neg hchk]
        exact keysNodup_set uri _ h

/-- C5 (witness): the cached parser evaluated on a concrete hit — the cache
holds checksum `"h"` and resource `42` for URI `1`, the checksum of the text
matches, so `42` is returned, the cache is unchanged and the underlying
parser (which would return `7`) is not invoked. -/
theorem cachedParse_spec_witness :
    cachedParse (fun (_ : Nat) (_ : String) => (7 : Nat)) (fun _ => "h") 1 "x"
      ⟨[(1, ⟨"h", 42⟩)]⟩ = (42, ⟨[(1, ⟨"h", 42⟩)]⟩, false) :=
  (cachedParse_spec (fun _ _ => 7) (fun _ => "h") 1 "x" ⟨[(1, ⟨"h", 42⟩)]⟩).1
    ⟨"h", 42⟩ rfl rfl

/-! ## Lemmas and claim theorem for plugin fault isolation -/

theorem hookFold_throw_fst {σ : Type} (uri hname : String)
    (call : ParserPlugin σ → σ → Option (Except String σ)) (bad : ParserPlugin σ)
    (hbad : ∀ note, call bad note = some (Except.error "boom")) :
    ∀ (ps1 ps2 : List (ParserPlugin σ)) (note : σ),
      (hookFold uri hname call (ps1 ++ bad :: ps2) note).1 =
        (hookFold uri hname call (ps1 ++ ps2) note).1 := by
  intro ps1
  induction ps1 with
  | nil =>
    intro ps2 note
    rw [List.nil_append, List.nil_append, hookFold, hbad note]
  | cons p rest ih =>
    intro ps2 note
    rw [List.cons_append, List.cons_append, hookFold, hookFold]
    cases hcall : call p note with
    | none => exact ih ps2 note
    | some exc =>
      cases exc with
      | ok n' => exact ih ps2 n'
      | error e => exact ih ps2 note

theorem hookFold_throw_mem {σ : Type} (uri hname : String)
    (call : ParserPlugin σ → σ → Option (Except String σ)) (bad : ParserPlugin σ)
    (hbad : ∀ note, call bad note = some (Except.error "boom")) :
    ∀ (ps1 ps2 : List (ParserPlugin σ)) (note : σ),
      (⟨hname, bad.name, uri⟩ : LogEntry) ∈
        (hookFold uri hname call (ps1 ++ bad :: ps2) note).2 := by
  intro ps1
  induction ps1 with
  | nil =>
    intro ps2 note
    rw [List.nil_append, hookFold, hbad note]
    exact List.mem_cons_self _ _
  | cons p rest ih =>
    intro ps2 note
    rw [List.cons_append, hookFold]
    cases hcall : call p note with
    | none => exact ih ps2 note
    | some exc =>
      cases exc with
      | ok n' => exact ih ps2 n'
      | error e => exact List.mem_cons_of_mem _ (ih ps2 note)

theorem visitStep_throw_fst {σ : Type} (uri md : String)
    (py : String → Except String Props) (mp : σ → Props → σ)
    (ps1 ps2 : List (ParserPlugin σ)) (nm : String) (n : MdNode)
    (acc1 acc2 : σ × List LogEntry) (hacc : acc1.1 = acc2.1) :
    (visitStep (ps1 ++ throwingPlugin σ nm :: ps2) uri md py mp acc1 n).1 =
      (visitStep (ps1 ++ ps2) uri md py mp acc2 n).1 := by
  unfold visitStep
  dsimp only
  by_cases hy : n.ntype = NodeType.yaml
  · rw [if_pos hy, if_pos hy]
    cases hpy : py n.nvalue with
    | ok props =>
      dsimp only
      rw [hacc]
      rw [hookFold_throw_fst uri "onDidFindProperties" _ _ (fun _ => rfl) ps1 ps2
        (mp acc2.1 props)]
      exact hookFold_throw_fst uri "visit" _ _ (fun _ => rfl) ps1 ps2 _
    | error e =>
      dsimp only
      rw [hacc]
      exact hookFold_throw_fst uri "visit" _ _ (fun _ => rfl) ps1 ps2 _
  · rw [if_neg hy, if_neg hy]
    rw [hacc]
    exact hookFold_throw_fst uri "visit" _ _ (fun _ => rfl) ps1 ps2 _

theorem visitFold_throw_fst {σ : Type} (uri md : String)
    (py : String → Except String Props) (mp : σ → Props → σ)
    (ps1 ps2 : List (ParserPlugin σ)) (nm : String) :
    ∀ (ns : List MdNode) (acc1 acc2 : σ × List LogEntry), acc1.1 = acc2.1 →
      (ns.foldl (visitStep (ps1 ++ throwingPlugin σ nm :: ps2) uri md py mp) acc1).1 =
        (ns.foldl (visitStep (ps1 ++ ps2) uri md py mp) acc2).1 := by
  intro ns
  induction ns with
  | nil => intro _ _ h; exact h
  | cons n rest ih =>
    intro acc1 acc2 h
    rw [List.foldl_cons, List.foldl_cons]
    exact ih _ _ (visitStep_throw_fst uri md py mp ps1 ps2 nm n acc1 acc2 h)

theorem visitStep_log_mono {σ : Type} (ps : List (ParserPlugin σ)) (uri md : String)
    (py : String → Except String Props) (mp : σ → Props → σ)
    (acc : σ × List LogEntry) (n : MdNode) (x : LogEntry) (h : x ∈ acc.2) :
    x ∈ (visitStep ps uri md py mp acc n).2 := by
  unfold visitStep
  dsimp only
  by_cases hy : n.ntype = NodeType.yaml
  · rw [if_pos hy]
    cases hpy : py n.nvalue with
    | ok props =>
      dsimp only
      exact List.mem_append_left _ (List.mem_append_left _ h)
    | error e =>
      dsimp only
      exact List.mem_append_left _ (List.mem_append_left _ h)
  · rw [if_neg hy]
    exact List.mem_append_left _ h

theorem visitFold_log_mono {σ : Type} (ps : List (ParserPlugin σ)) (uri md : String)
    (py : String → Except String Props) (mp : σ → Props → σ) :
    ∀ (ns : List MdNode) (acc : σ × List LogEntry) (x : LogEntry), x ∈ acc.2 →
      x ∈ (ns.foldl (visitStep ps uri md py mp) acc).2 := by
  intro ns
  induction ns with
  | nil => intro _ _ h; exact h
  | cons n rest ih =>
    intro acc x h
    rw [List.foldl_cons]
    exact ih _ x (visitStep_log_mono ps uri md py mp acc n x h)

theorem visitStep_throw_visit_mem {σ : Type} (uri md : String)
    (py : String → Except String Props) (mp : σ → Props → σ)
    (ps1 ps2 : List (ParserPlugin σ)) (nm : String) (n : MdNode)
    (acc : σ × List LogEntry) :
    (⟨"visit", nm, uri⟩ : LogEntry) ∈
      (visitStep (ps1 ++ throwingPlugin σ nm :: ps2) uri md py mp acc n).2 := by
  unfold visitStep
  dsimp only
  exact List.mem_append_right _
    (hookFold_throw_mem uri "visit" _ _ (fun _ => rfl) ps1 ps2 _)

theorem visitStep_throw_didFind_mem {σ : Type} (uri md : String)
    (py : String → Except String Props) (mp : σ → Props → σ)
    (ps1 ps2 : List (ParserPlugin σ)) (nm : String) (n : MdNode)
    (acc : σ × List LogEntry) (props : Props)
    (hy : n.ntype = NodeType.yaml) (hpy : py n.nvalue = Except.ok props) :
    (⟨"onDidFindProperties", nm, uri⟩ : LogEntry) ∈
      (visitStep (ps1 ++ throwingPlugin σ nm :: ps2) uri md py mp acc n).2 := by
  unfold visitStep
  dsimp only
  rw [if_pos hy, hpy]
  dsimp only
  refine List.mem_append_left _ (List.mem_append_right _ ?_)
  exact hookFold_throw_mem uri "onDidFindProperties" _ _ (fun _ => rfl) ps1 ps2 _

theorem visitFold_mem_of_node {σ : Type} (ps : List (ParserPlugin σ)) (uri md : String)
    (py : String → Except String Props) (mp : σ → Props → σ) (x : LogEntry) :
    ∀ (ns : List MdNode) (n : MdNode), n ∈ ns →
      (∀ acc, x ∈ (visitStep ps uri md py mp acc n).2) →
      ∀ acc, x ∈ (ns.foldl (visitStep ps uri md py mp) acc).2 := by
  intro ns
  induction ns with
  | nil => intro n h; simp at h
  | cons m rest ih =>
    intro n hn hstep acc
    rw [List.foldl_cons]
    rcases List.mem_cons.mp hn with rfl | h2
    · exact visitFold_log_mono ps uri md py mp rest _ x (hstep acc)
    · exact ih n h2 hstep _

theorem throwing_call_willVisit {σ : Type} (nm : String) (tree : MdNode) :
    ∀ note : σ,
      (fun (p : ParserPlugin σ) (note : σ) =>
          (p.onWillVisitTree).map fun f => f tree note)
        (throwingPlugin σ nm) note = some (Except.error "boom") :=
  fun _ => rfl

theorem throwing_call_didVisit {σ : Type} (nm md : String) (tree : MdNode) :
    ∀ note : σ,
      (fun (p : ParserPlugin σ) (note : σ) =>
          (p.onDidVisitTree).map fun f => f tree note md)
        (throwingPlugin σ nm) note = some (Except.error "boom") :=
  fun _ => rfl

theorem pipelineParse_throw_fst {σ : Type} (ps1 ps2 : List (ParserPlugin σ))
    (nm uri md : String) (tree : MdNode) (py : String → Except String Props)
    (mp : σ → Props → σ) (init : σ) :
    (pipelineParse (ps1 ++ throwingPlugin σ nm :: ps2) uri md tree py mp init).1 =
      (pipelineParse (ps1 ++ ps2) uri md tree py mp init).1 := by
  unfold pipelineParse
  dsimp only
  have h1 : (hookFold uri "onWillVisitTree"
      (fun p note => (p.onWillVisitTree).map fun f => f tree note)
      (ps1 ++ throwingPlugin σ nm :: ps2) init).1 =
    (hookFold uri "onWillVisitTree"
      (fun p note => (p.onWillVisitTree).map fun f => f tree note)
      (ps1 ++ ps2) init).1 :=
    hookFold_throw_fst uri "onWillVisitTree" _ _ (throwing_call_willVisit nm tree) ps1 ps2 init
  have h2 := visitFold_throw_fst uri md py mp ps1 ps2 nm tree.preorder
    ((hookFold uri "onWillVisitTree"
        (fun p note => (p.onWillVisitTree).map fun f => f tree note)
        (ps1 ++ throwingPlugin σ nm :: ps2) init).1,
      (hookFold uri "onWillParseMarkdown"
        (fun p note => (p.onWillParseMarkdown).map fun f => (f md).map fun _ => note)
        (ps1 ++ throwingPlugin σ nm :: ps2) init).2 ++
      (hookFold uri "onWillVisitTree"
        (fun p note => (p.onWillVisitTree).map fun f => f tree note)
        (ps1 ++ throwingPlugin σ nm :: ps2) init).2)
    ((hookFold uri "onWillVisitTree"
        (fun p note => (p.onWillVisitTree).map fun f => f tree note)
        (ps1 ++ ps2) init).1,
      (hookFold uri "onWillParseMarkdown"
        (fun p note => (p.onWillParseMarkdown).map fun f => (f md).map fun _ => note)
        (ps1 ++ ps2) init).2 ++
      (hookFold uri "onWillVisitTree"
        (fun p note => (p.onWillVisitTree).map fun f => f tree note)
        (ps1 ++ ps2) init).2)
    h1
  rw [hookFold_throw_fst uri "onDidVisitTree"
      (fun p note => (p.onDidVisitTree).map fun f => f tree note md)
      (throwingPlugin σ nm) (throwing_call_didVisit nm md tree) ps1 ps2 _, h2]

/-- C6: a plugin every one of whose hooks throws does not change the
resource produced by the pipeline — each failing dispatch is caught at the
`hookFold` boundary, the remaining plugins still run, and the parse returns
the same (partially built) resource as if the plugin were absent — and each
dispatched hook (`onWillParseMarkdown`, `onWillVisitTree`, `visit`,
`onDidVisitTree`, and `onDidFindProperties` whenever a front-matter node is
decoded) is logged with the hook name, the plugin name, and the document
URI. -/
theorem plugin_failure_isolated {σ : Type} (ps1 ps2 : List (ParserPlugin σ))
    (nm uri md : String) (tree : MdNode) (py : String → Except String Props)
    (mp : σ → Props → σ) (init : σ) :
    (pipelineParse (ps1 ++ throwingPlugin σ nm :: ps2) uri md tree py mp init).1 =
      (pipelineParse (ps1 ++ ps2) uri md tree py mp init).1 ∧
    (⟨"onWillParseMarkdown", nm, uri⟩ : LogEntry) ∈
      (pipelineParse (ps1 ++ throwingPlugin σ nm :: ps2) uri md tree py mp init).2 ∧
    (⟨"onWillVisitTree", nm, uri⟩ : LogEntry) ∈
      (pipelineParse (ps1 ++ throwingPlugin σ nm :: ps2) uri md tree py mp init).2 ∧
    (⟨"visit", nm, uri⟩ : LogEntry) ∈
      (pipelineParse (ps1 ++ throwingPlugin σ nm :: ps2) uri md tree py mp init).2 ∧
    (⟨"onDidVisitTree", nm, uri⟩ : LogEntry) ∈
      (pipelineParse (ps1 ++ throwingPlugin σ nm :: ps2) uri md tree py mp init).2 ∧
    (∀ n ∈ tree.preorder, n.ntype = NodeType.yaml →
      ∀ props, py n.nvalue = Except.ok props →
        (⟨"onDidFindProperties", nm, uri⟩ : LogEntry) ∈
          (pipelineParse (ps1 ++ throwingPlugin σ nm :: ps2) uri md tree py mp init).2) := by
  refine ⟨pipelineParse_throw_fst ps1 ps2 nm uri md tree py mp init, ?_, ?_, ?_, ?_, ?_⟩
  all_goals unfold pipelineParse
  all_goals dsimp only
  · refine List.mem_append_left _ ?_
    refine visitFold_log_mono _ uri md py mp tree.preorder _ _ ?_
    exact List.mem_append_left _
      (hookFold_throw_mem uri "onWillParseMarkdown" _ _ (fun _ => rfl) ps1 ps2 init)
  · refine List.mem_append_left _ ?_
    refine visitFold_log_mono _ uri md py mp tree.preorder _ _ ?_
    exact List.mem_append_right _
      (hookFold_throw_mem uri "onWillVisitTree" _ _ (fun _ => rfl) ps1 ps2 init)
  · refine List.mem_append_left _ ?_
    obtain ⟨i, t, d, v, p, cs⟩ := tree
    refine visitFold_mem_of_node _ uri md py mp _ _ (MdNode.node i t d v p cs)
      (List.mem_cons_self _ _) ?_ _
    intro acc
    exact visitStep_throw_visit_mem uri md py mp ps1 ps2 nm _ acc
  · refine List.mem_append_right _ ?_
    exact hookFold_throw_mem uri "onDidVisitTree" _ _ (fun _ => rfl) ps1 ps2 _
  · intro n hn hy props hpy
    refine List.mem_append_left _ ?_
    refine visitFold_mem_of_node _ uri md py mp _ tree.preorder n hn ?_ _
    intro acc
    exact visitStep_throw_didFind_mem uri md py mp ps1 ps2 nm n acc props hy hpy

/-- C6 (witness): the isolation theorem evaluated on a concrete pipeline —
a single all-throwing plugin named `"bad"`, a document whose tree is one
front-matter node, and a YAML decoder that succeeds — showing the
`onDidFindProperties` failure of the throwing plugin is logged with hook
name, plugin name and URI. -/
theorem plugin_failure_isolated_witness :
    (yamlNode ∈ yamlTree.preorder ∧ yamlNode.ntype = NodeType.yaml ∧
      (fun _ : String => (Except.ok [] : Except String Props)) yamlNode.nvalue =
        (Except.ok [] : Except String Props)) ∧
    (⟨"onDidFindProperties", "bad", "u"⟩ : LogEntry) ∈
      (pipelineParse ([] ++ throwingPlugin Nat "bad" :: []) "u" "m" yamlTree
        (fun _ => (Except.ok [] : Except String Props)) (fun s _ => s) 0).2 :=
  ⟨⟨List.Mem.tail _ (List.Mem.head _), rfl, rfl⟩,
    (plugin_failure_isolated [] [] "bad" "u" "m" yamlTree
      (fun _ => (Except.ok [] : Except String Props)) (fun s _ => s) 0).2.2.2.2.2 yamlNode
      (List.Mem.tail _ (List.Mem.head _)) rfl [] rfl⟩

/-! ## Lemmas and claim theorems for NoteLinkDefinition formatting -/

theorem takeWhile_append_stop {p : Char → Bool} :
    ∀ (l : List Char) (x : Char) (r : List Char), (∀ c ∈ l, p c = true) → p x = false →
      (l ++ x :: r).takeWhile p = l ∧ (l ++ x :: r).dropWhile p = x :: r := by
  intro l
  induction l with
  | nil =>
    intro x r _ hx
    constructor
    · rw [List.nil_append, List.takeWhile_cons, hx]
      simp
    · rw [List.nil_append, List.dropWhile_cons, hx]
      simp
  | cons a t ih =>
    intro x r hl hx
    have ha : p a = true := hl a (by simp)
    obtain ⟨h1, h2⟩ := ih x r (fun c hc => hl c (by simp [hc])) hx
    constructor
    · rw [List.cons_append, List.takeWhile_cons, ha, h1]
      simp
    · rw [List.cons_append, List.dropWhile_cons, ha, h2]
      simp

theorem takeWhile_all {p : Char → Bool} :
    ∀ l : List Char, (∀ c ∈ l, p c = true) → l.takeWhile p = l ∧ l.dropWhile p = [] := by
  intro l
  induction l with
  | nil => intro _; exact ⟨rfl, rfl⟩
  | cons a t ih =>
    intro hl
    have ha : p a = true := hl a (by simp)
    obtain ⟨h1, h2⟩ := ih (fun c hc => hl c (by simp [hc]))
    constructor
    · rw [List.takeWhile_cons, ha, h1]
      simp
    · rw [List.dropWhile_cons, ha, h2]
      simp

theorem takeWhile_until (x : Char) (l : List Char) (h : x ∉ l) {r : List Char} :
    (l ++ x :: r).takeWhile (fun c => decide (c ≠ x)) = l := by
  refine (takeWhile_append_stop l x r ?_ (by simp)).1
  intro c hc
  simp only [decide_eq_true_eq]
  exact fun he => h (he ▸ hc)

theorem dropWhile_until (x : Char) (l : List Char) (h : x ∉ l) {r : List Char} :
    (l ++ x :: r).dropWhile (fun c => decide (c ≠ x)) = x :: r := by
  refine (takeWhile_append_stop l x r ?_ (by simp)).2
  intro c hc
  simp only [decide_eq_true_eq]
  exact fun he => h (he ▸ hc)

theorem jsIndexOf_pos_iff {s : String} {c : Char} (h : s.data.head? ≠ some c) :
    jsIndexOf s c > 0 ↔ c ∈ s.data := by
  unfold jsIndexOf
  cases hl : s.data with
  | nil =>
    simp
  | cons a t =>
    have hac : (a == c) = false := by
      rw [hl] at h
      simp only [List.head?_cons, ne_eq, Option.some.injEq] at h
      exact beq_eq_false_iff_ne.mpr h
    rw [List.findIdx?_cons, hac, if_neg (by decide), List.findIdx?_start_succ]
    cases hi : t.findIdx? (· == c) with
    | none =>
      have hnm : ∀ x, x ∈ t → (x == c) = false := List.findIdx?_eq_none_iff.mp hi
      simp only [Option.map_none']
      constructor
      · intro hfalse
        exact absurd hfalse (by decide)
      · intro hmem
        rcases List.mem_cons.mp hmem with rfl | h2
        · rw [show ((c == c) = true) by simp] at hac
          exact absurd hac (by decide)
        · have := hnm c h2
          rw [show ((c == c) = true) by simp] at this
          exact absurd this (by decide)
    | some i =>
      simp only [Option.map_some']
      constructor
      · intro _
        have hsome : (t.findIdx? (· == c)).isSome = true := by rw [hi]; rfl
        rw [List.findIdx?_isSome, List.any_eq_true] at hsome
        obtain ⟨x, hx, hpx⟩ := hsome
        have hxc : x = c := by simpa using hpx
        exact List.mem_cons_of_mem _ (hxc ▸ hx)
      · intro _
        show (0 : Int) < ((i + (0 + 1) : Nat) : Int)
        omega

theorem string_eta (s : String) : String.mk s.data = s := rfl

theorem finishTitle_none (label url : List Char) :
    finishTitle label url [] = some ⟨String.mk label, String.mk url, none⟩ := rfl

theorem finishTitle_some (label url : List Char) (t : String) (ht : '"' ∉ t.data) :
    finishTitle label url (' ' :: '"' :: (t.data ++ ['"'])) =
      some ⟨String.mk label, String.mk url, some t⟩ := by
  unfold finishTitle
  rw [List.dropWhile_cons_of_pos (by decide), List.dropWhile_cons_of_neg (by decide)]
  dsimp only
  rw [if_pos rfl]
  obtain ⟨h1, h2⟩ := @takeWhile_append_stop (fun c => decide (c ≠ '"')) t.data '"' []
    (fun c hc => decide_eq_true (fun he => ht (he ▸ hc))) (by decide)
  rw [h2]
  dsimp only
  rw [if_pos rfl, h1, string_eta]

theorem format_data (d : NoteLinkDefinition) :
    (NoteLinkDefinition.format d).data =
      '[' :: (d.label.data ++ ']' :: ':' :: ' ' ::
        ((if jsIndexOf d.url ' ' > 0 then '<' :: (d.url.data ++ ['>']) else d.url.data) ++
          (match d.title with
            | some t => if t = "" then [] else ' ' :: '"' :: (t.data ++ ['"'])
            | none => []))) := by
  unfold NoteLinkDefinition.format
  cases d.title with
  | none =>
    by_cases hw : jsIndexOf d.url ' ' > 0 <;>
      simp [hw, String.data_append, List.append_assoc]
  | some t =>
    by_cases ht : t = "" <;> by_cases hw : jsIndexOf d.url ' ' > 0 <;>
      simp [hw, ht, String.data_append, List.append_assoc]

/-- C9 (counterexample): for the definition with label `"l"`, url `" x"`
(space at index 0) and no title, the formatted text is `"[l]:  x"`: the url
contains a space but is not wrapped in angle brackets (`indexOf(' ') > 0`
is false at index 0), and re-parsing the formatted text yields url `"x"`,
so the round trip does not preserve the url either. -/
theorem format_roundtrip_counterexample :
    NoteLinkDefinition.format ⟨"l", " x", none⟩ = "[l]:  x" ∧
    (' ' ∈ (" x").data) ∧
    ('<' ∉ ("[l]:  x").data) ∧
    parseDef (NoteLinkDefinition.format ⟨"l", " x", none⟩) = some ⟨"l", "x", none⟩ := by
  refine ⟨by decide, by decide, by decide, by decide⟩

/-- C9 (amended): for every NoteLinkDefinition whose label contains no `]`,
whose url is nonempty, does not start with a space or `<`, and contains no
`>`, and whose title (when present) is nonempty and contains no `"`:
formatting and re-parsing yields the same definition (label, url and title
preserved), and the formatted text wraps the url in angle brackets iff the
url contains a space (under the no-leading-space hypothesis,
`indexOf(' ') > 0` coincides with containment; the counterexample shows the
leading-space case genuinely diverges). -/
theorem format_roundtrip_amended (d : NoteLinkDefinition)
    (hlabel : ']' ∉ d.label.data)
    (hurl : d.url ≠ "")
    (hsp : d.url.data.head? ≠ some ' ')
    (hlt : d.url.data.head? ≠ some '<')
    (hgt : '>' ∉ d.url.data)
    (htitle : ∀ t, d.title = some t → t ≠ "" ∧ '"' ∉ t.data) :
    parseDef (NoteLinkDefinition.format d) = some d ∧
    (jsIndexOf d.url ' ' > 0 ↔ ' ' ∈ d.url.data) := by
  obtain ⟨dl, du, dt⟩ := d
  dsimp only at hlabel hurl hsp hlt hgt htitle ⊢
  have hwrap : jsIndexOf du ' ' > 0 ↔ ' ' ∈ du.data := jsIndexOf_pos_iff hsp
  refine ⟨?_, hwrap⟩
  obtain ⟨u, us, hu⟩ : ∃ u us, du.data = u :: us := by
    cases hud : du.data with
    | nil =>
      exfalso
      apply hurl
      have h0 : du = String.mk du.data := rfl
      rw [h0, hud]
    | cons u us => exact ⟨u, us, rfl⟩
  have hune : u ≠ ' ' := by
    rw [hu] at hsp
    simpa using hsp
  have hunl : u ≠ '<' := by
    rw [hu] at hlt
    simpa using hlt
  unfold parseDef
  rw [format_data ⟨dl, du, dt⟩]
  dsimp only
  rw [if_pos rfl]
  cases dt with
  | none =>
    dsimp only
    rw [List.append_nil, dropWhile_until ']' dl.data hlabel]
    dsimp only
    rw [if_pos ⟨rfl, rfl⟩, List.dropWhile_cons_of_pos (by decide)]
    by_cases hw : jsIndexOf du ' ' > 0
    · rw [if_pos hw, List.dropWhile_cons_of_neg (by decide)]
      dsimp only
      rw [if_pos rfl, show du.data ++ ['>'] = du.data ++ '>' :: [] from rfl,
        dropWhile_until '>' du.data hgt]
      dsimp only
      rw [if_pos rfl, takeWhile_until '>' du.data hgt, takeWhile_until ']' dl.data hlabel,
        finishTitle_none, string_eta, string_eta]
    · have hnos : ' ' ∉ du.data := fun hmem => hw (hwrap.mpr hmem)
      rw [if_neg hw, hu, List.dropWhile_cons_of_neg (by simp [hune])]
      dsimp only
      rw [if_neg hunl]
      have hall : ∀ c ∈ u :: us, (fun c => decide (c ≠ ' ')) c = true :=
        fun c hc => decide_eq_true fun he => hnos (he ▸ hu ▸ hc)
      obtain ⟨hta, hda⟩ := takeWhile_all (u :: us) hall
      rw [hta, hda]
      rw [if_neg (by simp)]
      rw [finishTitle_none, takeWhile_until ']' dl.data hlabel, string_eta]
      rw [show String.mk (u :: us) = du from by rw [← hu]]
  | some t =>
    obtain ⟨ht1, ht2⟩ := htitle t rfl
    dsimp only
    rw [if_neg ht1, dropWhile_until ']' dl.data hlabel]
    dsimp only
    rw [if_pos ⟨rfl, rfl⟩, List.dropWhile_cons_of_pos (by decide)]
    by_cases hw : jsIndexOf du ' ' > 0
    · rw [if_pos hw, List.cons_append, List.dropWhile_cons_of_neg (by decide)]
      dsimp only
      rw [if_pos rfl, List.append_assoc, show ['>'] ++ (' ' :: '"' :: (t.data ++ ['"'])) =
          '>' :: ' ' :: '"' :: (t.data ++ ['"']) from rfl,
        dropWhile_until '>' du.data hgt]
      dsimp only
      rw [if_pos rfl, takeWhile_until '>' du.data hgt, takeWhile_until ']' dl.data hlabel,
        finishTitle_some _ _ _ ht2, string_eta, string_eta]
    · have hnos : ' ' ∉ du.data := fun hmem => hw (hwrap.mpr hmem)
      rw [if_neg hw, hu, List.cons_append, List.dropWhile_cons_of_neg (by simp [hune])]
      dsimp only
      rw [if_neg hunl]
      have hnos2 : ' ' ∉ u :: us := hu ▸ hnos
      rw [show u :: (us ++ ' ' :: '"' :: (t.data ++ ['"'])) =
          (u :: us) ++ ' ' :: '"' :: (t.data ++ ['"']) from rfl,
        takeWhile_until ' ' (u :: us) hnos2, dropWhile_until ' ' (u :: us) hnos2]
      rw [if_neg (by simp)]
      rw [finishTitle_some _ _ _ ht2, takeWhile_until ']' dl.data hlabel, string_eta]
      rw [show String.mk (u :: us) = du from by rw [← hu]]

/-- C9 (witness): the amended round trip evaluated on the definition with
label `"l"`, url `"a b"` (interior space, so the formatted url is wrapped)
and title `"t"`. -/
theorem format_roundtrip_amended_witness :
    parseDef (NoteLinkDefinition.format ⟨"l", "a b", some "t"⟩) =
        some ⟨"l", "a b", some "t"⟩ ∧
    (jsIndexOf ("a b" : String) ' ' > 0 ↔ ' ' ∈ ("a b" : String).data) :=
  format_roundtrip_amended ⟨"l", "a b", some "t"⟩ (by decide) (by decide) (by decide)
    (by decide) (by decide) (by intro t ht; injection ht with ht; subst ht; exact ⟨by decide, by decide⟩)

end Foam
